import Mathlib

/-!
Verification of the core algorithms of `src/stress-mergesort.c`:
the non-libc merge sort (`mergesort_copy`, `mergesort_partition4`,
`mergesort_partition`, `mergesort_nonlibc`) and the NUMA helpers
(`hex_to_int`, the node-list construction of `stress_numa_get_mem_nodes`,
and the error dispatch of the `stress_numa` main loop).

Modelling conventions:

* Buffers are total functions `Nat → α` at record granularity.  Every
  pointer the C sort forms is a whole number of records away from the
  buffer start, so the byte-exact copy of one record (`mergesort_copy`
  with `size` bytes, or the direct `uint32_t` store) becomes a single
  record write, and the bulk tail copies (whose byte count is a multiple
  of the record size) become runs of record writes.  The main buffer
  `base` and the scratch buffer are distinct allocations (`RESTRICT`,
  separate `mmap`), hence two distinct functions, so no aliasing arises.
* `size_t` arithmetic that can wrap (`nmemb - 1` in `mergesort_nonlibc`)
  is taken modulo `2 ^ 64`.
* The scratch `mmap` of `mergesort_nonlibc` is modelled by an
  `Option (Nat → α)` argument: `none` is `MAP_FAILED`, `some scr` is a
  fresh mapping whose (record-level) contents are `scr`.  A real fresh
  anonymous mapping is zero filled; leaving the contents abstract only
  strengthens the universally quantified theorems, and the concrete
  evaluations use the zero-filled scratch.
* The C loops are written with an explicit fuel argument so that the
  definitions compute.  Every entry point passes a fuel that strictly
  dominates the loop variant, so the fuel-exhaustion branch is never
  taken and the model agrees with the C control flow step by step.
-/

/-- Pointwise update of a record buffer: one record store. -/
def upd {α : Type} (f : Nat → α) (i : Nat) (v : α) : Nat → α :=
  fun j => if j = i then v else f j

/-- `mergesort_copy` (stress-mergesort.c lines 48-67) at record
granularity: copy `n` records from `src` starting at `si` to `dst`
starting at `di`, front to back, like the word/byte loops. -/
def mergesort_copy {α : Type} : (Nat → α) → Nat → (Nat → α) → Nat → Nat → (Nat → α)
  | dst, _, _, _, 0 => dst
  | dst, di, src, si, n + 1 => mergesort_copy (upd dst di (src si)) (di + 1) src (si + 1) n

/-- The `n` records of buffer `f` starting at index `s`, as a list. -/
def listOf {α : Type} (f : Nat → α) : Nat → Nat → List α
  | _, 0 => []
  | s, n + 1 => f s :: listOf f (s + 1) n

/-- The merge loop of `mergesort_partition4` (lines 105-119).  State:
`li`/`ri` are the scratch indices of the two run cursors (`lhs`, `rhs`),
`bi` the output index (`base`), all in records.  `LE` is the index one
past the left run (`lhs_end`), `RE` one past the right run (`rhs_end`).
Exactly like the C loop, the comparator is consulted and the store
performed BEFORE the cursor bound is checked, and on break the output
cursor is not advanced.  Returns the final `(li, ri, bi, base)`. -/
def merge_loop4 {α : Type} (cmp : α → α → Int) (scr : Nat → α) (LE RE : Nat) :
    Nat → Nat → Nat → Nat → (Nat → α) → Nat × Nat × Nat × (Nat → α)
  | 0, li, ri, bi, base => (li, ri, bi, base)
  | fuel + 1, li, ri, bi, base =>
    if cmp (scr li) (scr ri) < 0 then
      let b := upd base bi (scr li)
      if LE < li + 1 then (li + 1, ri, bi, b)
      else merge_loop4 cmp scr LE RE fuel (li + 1) ri (bi + 1) b
    else
      let b := upd base bi (scr ri)
      if RE < ri + 1 then (li, ri + 1, bi, b)
      else merge_loop4 cmp scr LE RE fuel li (ri + 1) (bi + 1) b

/-- The merge loop of the generic-width `mergesort_partition`
(lines 169-183): identical control flow, but each store is a
`mergesort_copy` of one record. -/
def merge_loopG {α : Type} (cmp : α → α → Int) (scr : Nat → α) (LE RE : Nat) :
    Nat → Nat → Nat → Nat → (Nat → α) → Nat × Nat × Nat × (Nat → α)
  | 0, li, ri, bi, base => (li, ri, bi, base)
  | fuel + 1, li, ri, bi, base =>
    if cmp (scr li) (scr ri) < 0 then
      let b := mergesort_copy base bi scr li 1
      if LE < li + 1 then (li + 1, ri, bi, b)
      else merge_loopG cmp scr LE RE fuel (li + 1) ri (bi + 1) b
    else
      let b := mergesort_copy base bi scr ri 1
      if RE < ri + 1 then (li, ri + 1, bi, b)
      else merge_loopG cmp scr LE RE fuel li (ri + 1) (bi + 1) b

/-- The two tail copies after the merge loop (lines 121-129 resp.
185-192): `n = lhs_end - lhs` records of the left run, then
`n = rhs_end - rhs` records of the right run, each copied only when the
signed byte count is positive, with the output cursor advanced between
them. -/
def merge_tails {α : Type} (scr : Nat → α) (LE RE li ri bi : Nat) (base : Nat → α) :
    Nat → α :=
  let b1 := if li < LE then mergesort_copy base bi scr li (LE - li) else base
  let bi1 := if li < LE then bi + (LE - li) else bi
  if ri < RE then mergesort_copy b1 bi1 scr ri (RE - ri) else b1

/-- Merge loop followed by the tail copies, 4-byte path. -/
def merge_run4 {α : Type} (cmp : α → α → Int) (scr : Nat → α)
    (LE RE fuel li ri bi : Nat) (base : Nat → α) : Nat → α :=
  let r := merge_loop4 cmp scr LE RE fuel li ri bi base
  merge_tails scr LE RE r.1 r.2.1 r.2.2.1 r.2.2.2

/-- Merge loop followed by the tail copies, generic path. -/
def merge_runG {α : Type} (cmp : α → α → Int) (scr : Nat → α)
    (LE RE fuel li ri bi : Nat) (base : Nat → α) : Nat → α :=
  let r := merge_loopG cmp scr LE RE fuel li ri bi base
  merge_tails scr LE RE r.1 r.2.1 r.2.2.1 r.2.2.2

/-- The merge part of `mergesort_partition4` (lines 90-129): copy the
two sub-runs `base[left..mid]` and `base[mid+1..right]` into adjacent
scratch regions, run the merge loop and the tail copies.  Returns the
updated `(base, scratch)`.  The loop fuel strictly dominates the loop
variant, so the model never takes the fuel-exhaustion branch. -/
def merge_step4 {α : Type} (cmp : α → α → Int) (base scr : Nat → α)
    (left mid right : Nat) : (Nat → α) × (Nat → α) :=
  let lhsLen := mid - left + 1
  let rhsLen := right - mid
  let scr1 := mergesort_copy scr 0 base left lhsLen
  let scr2 := mergesort_copy scr1 lhsLen base (mid + 1) rhsLen
  (merge_run4 cmp scr2 lhsLen (lhsLen + rhsLen) (lhsLen + rhsLen + 2) 0 lhsLen left base,
   scr2)

/-- The merge part of the generic-width `mergesort_partition`
(lines 154-192). -/
def merge_stepG {α : Type} (cmp : α → α → Int) (base scr : Nat → α)
    (left mid right : Nat) : (Nat → α) × (Nat → α) :=
  let lhsLen := mid - left + 1
  let rhsLen := right - mid
  let scr1 := mergesort_copy scr 0 base left lhsLen
  let scr2 := mergesort_copy scr1 lhsLen base (mid + 1) rhsLen
  (merge_runG cmp scr2 lhsLen (lhsLen + rhsLen) (lhsLen + rhsLen + 2) 0 lhsLen left base,
   scr2)

/-- `mergesort_partition4` (lines 73-130): split at
`mid = left + (right-left)/2`, recurse on `[left,mid]` when `left < mid`
and on `[mid+1,right]` when `mid+1 < right`, then merge.  The fuel
argument makes the recursion structural; every caller passes fuel
strictly greater than `right - left`, which dominates the recursion
depth. -/
def mergesort_partition4 {α : Type} (cmp : α → α → Int) :
    Nat → (Nat → α) → (Nat → α) → Nat → Nat → (Nat → α) × (Nat → α)
  | 0, base, scr, _, _ => (base, scr)
  | fuel + 1, base, scr, left, right =>
    let mid := left + (right - left) / 2
    let p1 := if left < mid then mergesort_partition4 cmp fuel base scr left mid
              else (base, scr)
    let p2 := if mid + 1 < right then mergesort_partition4 cmp fuel p1.1 p1.2 (mid + 1) right
              else p1
    merge_step4 cmp p2.1 p2.2 left mid right

/-- `mergesort_partition` (lines 136-193), the generic-width path. -/
def mergesort_partition {α : Type} (cmp : α → α → Int) :
    Nat → (Nat → α) → (Nat → α) → Nat → Nat → (Nat → α) × (Nat → α)
  | 0, base, scr, _, _ => (base, scr)
  | fuel + 1, base, scr, left, right =>
    let mid := left + (right - left) / 2
    let p1 := if left < mid then mergesort_partition cmp fuel base scr left mid
              else (base, scr)
    let p2 := if mid + 1 < right then mergesort_partition cmp fuel p1.1 p1.2 (mid + 1) right
              else p1
    merge_stepG cmp p2.1 p2.2 left mid right

/-- `2 ^ 64`, the modulus of `size_t` arithmetic. -/
def SIZE_WORD : Nat := 2 ^ 64

/-- The upper bound `nmemb - 1` computed in `size_t` by
`mergesort_nonlibc` (line 213/216): it wraps modulo `2 ^ 64`. -/
def mergesort_right (nmemb : Nat) : Nat := (nmemb + (SIZE_WORD - 1)) % SIZE_WORD

/-- `mergesort_nonlibc` (lines 195-221).  `alloc` is the outcome of the
scratch `stress_mmap_populate`: `none` models `MAP_FAILED` (return `-1`,
buffer untouched), `some scr` a fresh mapping.  On success the function
dispatches on the record size: the specialised 4-byte partition for
`size = 4`, the generic partition otherwise, and returns `0`. -/
def mergesort_nonlibc {α : Type} (cmp : α → α → Int) (size : Nat)
    (alloc : Option (Nat → α)) (base : Nat → α) (nmemb : Nat) :
    Int × (Nat → α) :=
  match alloc with
  | none => (-1, base)
  | some scr =>
    let right := mergesort_right nmemb
    if size = 4 then
      (0, (mergesort_partition4 cmp (right + 1) base scr 0 right).1)
    else
      (0, (mergesort_partition cmp (right + 1) base scr 0 right).1)

/-- The merge of two lists following the spec's words for the merge
step: the left front is emitted exactly when the comparator returns a
negative value on `(left front, right front)`; on zero or positive
results (ties) the right front is emitted. -/
def mergeList {α : Type} (cmp : α → α → Int) : List α → List α → List α
  | [], ys => ys
  | x :: xs, [] => x :: xs
  | x :: xs, y :: ys =>
    if cmp x y < 0 then x :: mergeList cmp xs (y :: ys)
    else y :: mergeList cmp (x :: xs) ys
termination_by l r => l.length + r.length

/-- Adjacent-pair order check over `f [l..r]`: no pair violates the
comparator, exactly the verification pass of the driver. -/
def sortedRange {α : Type} (cmp : α → α → Int) (f : Nat → α) (l r : Nat) : Prop :=
  ∀ i, l ≤ i → i < r → cmp (f i) (f (i + 1)) ≤ 0

/-- A concrete ascending comparator on `Int`, the record-level shape of
`stress_sort_cmp_fwd_int32`, used for the concrete evaluations. -/
def int_cmp_fwd (a b : Int) : Int := if a < b then -1 else if b < a then 1 else 0

/-- `hex_to_int` (stress-mergesort.c lines 673-682), translated branch
for branch, including the arithmetic of the upper-case branch, which the
source writes as `ch - 'F' + 10`. -/
def hex_to_int (ch : Char) : Int :=
  if '0' ≤ ch ∧ ch ≤ '9' then (ch.toNat : Int) - ('0'.toNat : Int)
  else if 'a' ≤ ch ∧ ch ≤ 'f' then (ch.toNat : Int) - ('a'.toNat : Int) + 10
  else if 'A' ≤ ch ∧ ch ≤ 'F' then (ch.toNat : Int) - ('F'.toNat : Int) + 10
  else -1

/-- The pointer structure built by `stress_numa_get_mem_nodes`
(lines 690-758).  Nodes are addressed by creation order; `head` is
`*node_ptr`, `tail` the first node created, `nxt` the `next` pointers,
`ids` the `node_id` fields and `cnt` the number of nodes created
(the returned `n`). -/
structure NodeHeap where
  head : Option Nat
  tail : Option Nat
  nxt : Nat → Nat
  ids : Nat → Nat
  cnt : Nat

/-- The empty list state (`*node_ptr = NULL`, `tail = NULL`). -/
def emptyHeap : NodeHeap :=
  { head := none, tail := none, nxt := fun _ => 0, ids := fun _ => 0, cnt := 0 }

/-- One node insertion (lines 740-749): `node->next = *node_ptr`;
`*node_ptr = node`; `if (!tail) tail = node`; `tail->next = node`.
For the first node the `NULL` next pointer is immediately overwritten
by the `tail->next` assignment, making it a self-loop, which the model
reproduces. -/
def node_push (st : NodeHeap) (id : Nat) : NodeHeap :=
  let a := st.cnt
  let n1 : Nat → Nat := fun j => if j = a then st.head.getD a else st.nxt j
  let t := st.tail.getD a
  { head := some a
    tail := some t
    nxt := fun j => if j = t then a else n1 j
    ids := fun j => if j = a then id else st.ids j
    cnt := a + 1 }

/-- The inner loop over the four bits of one hex digit (lines 738-752):
bit `i` set inserts a node with id `node_id + i`; `node_id` advances by
4 per digit. -/
def nibble_push (v : Nat) (node_id : Nat) (st : NodeHeap) : NodeHeap :=
  let s0 := if v.testBit 0 then node_push st node_id else st
  let s1 := if v.testBit 1 then node_push s0 (node_id + 1) else s0
  let s2 := if v.testBit 2 then node_push s1 (node_id + 2) else s1
  if v.testBit 3 then node_push s2 (node_id + 3) else s2

/-- The parsing loop of `stress_numa_get_mem_nodes` (lines 724-757) on
the `Mems_allowed:` digit string, given as the list of characters
scanned right to left (the C code walks `ptr` backwards from the end of
the line).  Commas are skipped; a character that is not a hex digit
aborts with failure (`none`, the C `-1`); otherwise the digit's set
bits create nodes.  Returns the final heap and `node_id` (the returned
`*max_nodes`). -/
def stress_numa_get_mem_nodes : List Char → Nat → NodeHeap → Option (NodeHeap × Nat)
  | [], node_id, st => some (st, node_id)
  | c :: rest, node_id, st =>
    if c = ',' then stress_numa_get_mem_nodes rest node_id st
    else
      let v := hex_to_int c
      if v < 0 then none
      else stress_numa_get_mem_nodes rest (node_id + 4) (nibble_push v.toNat node_id st)

/-- The syscalls of one `stress_numa` iteration whose return value the
code inspects, in program order (lines 878-1241). -/
inductive NumaCall
  | getMempolicy
  | setMempolicy
  | mbindStrict
  | mbindDefault
  | migratePages
  | movePages
deriving DecidableEq

/-- Error numbers involved in the dispatch (distinct values suffice). -/
def errno_enosys : Int := 38

def errno_eio : Int := 5

def errno_eperm : Int := 1

/-- Whether a failed call takes the fatal `goto err` path, per the
source: `get_mempolicy` (lines 894-899) and `set_mempolicy`
(lines 922-928) are fatal unless `errno == ENOSYS`; the two checked
`mbind`s (lines 1028-1033, 1061-1066) are fatal unless `errno` is `EIO`
or `ENOSYS`; `migrate_pages` failures are ignored (`VOID_RET`,
lines 1124-1136); the primary `move_pages` (lines 1183-1191) is fatal
unless `errno == ENOSYS`. -/
def numa_call_fatal (c : NumaCall) (ret errno : Int) : Bool :=
  match c with
  | .getMempolicy => decide (ret < 0) && decide (errno ≠ errno_enosys)
  | .setMempolicy => decide (ret < 0) && decide (errno ≠ errno_enosys)
  | .mbindStrict => decide (ret < 0) && decide (errno ≠ errno_eio) && decide (errno ≠ errno_enosys)
  | .mbindDefault => decide (ret < 0) && decide (errno ≠ errno_eio) && decide (errno ≠ errno_enosys)
  | .migratePages => false
  | .movePages => decide (ret < 0) && decide (errno ≠ errno_enosys)

/-- The checked calls of one iteration in program order. -/
def numa_iteration_calls : List NumaCall :=
  [NumaCall.getMempolicy, NumaCall.setMempolicy, NumaCall.mbindStrict,
   NumaCall.mbindDefault, NumaCall.migratePages, NumaCall.movePages]

/-- Given each call's `(ret, errno)` outcome, the first call of the
iteration that takes the `goto err` early exit, or `none` when the
iteration runs through and the stress loop continues. -/
def numa_first_fatal (out : NumaCall → Int × Int) : Option NumaCall :=
  numa_iteration_calls.find? (fun c => numa_call_fatal c (out c).1 (out c).2)

/-- Outcome environment in which every syscall succeeds except the
primary `move_pages`, which fails with `EPERM` (an error other than
"not supported"). -/
def move_pages_eperm (c : NumaCall) : Int × Int :=
  match c with
  | .movePages => (-1, errno_eperm)
  | _ => (0, 0)

theorem upd_self {α : Type} (f : Nat → α) (i : Nat) (v : α) : upd f i v i = v := by
  simp [upd]

theorem upd_ne {α : Type} (f : Nat → α) {i j : Nat} (v : α) (h : j ≠ i) :
    upd f i v j = f j := by
  simp [upd, h]

theorem mergesort_copy_spec {α : Type} :
    ∀ (n : Nat) (dst : Nat → α) (di : Nat) (src : Nat → α) (si j : Nat),
      mergesort_copy dst di src si n j =
        if di ≤ j ∧ j < di + n then src (si + (j - di)) else dst j := by
  intro n
  induction n with
  | zero =>
    intro dst di src si j
    simp only [mergesort_copy]
    have h : ¬(di ≤ j ∧ j < di + 0) := by omega
    rw [if_neg h]
  | succ n ih =>
    intro dst di src si j
    simp only [mergesort_copy]
    rw [ih]
    by_cases h1 : di + 1 ≤ j ∧ j < di + 1 + n
    · have h2 : di ≤ j ∧ j < di + (n + 1) := by omega
      have h3 : si + 1 + (j - (di + 1)) = si + (j - di) := by omega
      simp [h1, h2, h3]
    · by_cases h4 : j = di
      · have h5 : di ≤ j ∧ j < di + (n + 1) := by omega
        simp [h1, h4, h5, upd_self]
      · have h5 : ¬(di ≤ j ∧ j < di + (n + 1)) := by omega
        simp [h1, h5, upd_ne _ _ h4]

theorem listOf_zero {α : Type} (f : Nat → α) (s : Nat) : listOf f s 0 = [] := rfl

theorem listOf_succ {α : Type} (f : Nat → α) (s n : Nat) :
    listOf f s (n + 1) = f s :: listOf f (s + 1) n := rfl

theorem listOf_congr {α : Type} {f g : Nat → α} :
    ∀ (n s t : Nat), (∀ k, k < n → f (s + k) = g (t + k)) → listOf f s n = listOf g t n := by
  intro n
  induction n with
  | zero => intro s t _; rfl
  | succ n ih =>
    intro s t h
    simp only [listOf_succ]
    have h0 : f s = g t := by simpa using h 0 (by omega)
    rw [h0]
    congr 1
    refine ih (s + 1) (t + 1) ?_
    intro k hk
    have hk1 := h (k + 1) (by omega)
    have e1 : s + (k + 1) = s + 1 + k := by omega
    have e2 : t + (k + 1) = t + 1 + k := by omega
    rw [e1, e2] at hk1
    exact hk1

theorem listOf_length {α : Type} (f : Nat → α) :
    ∀ (n s : Nat), (listOf f s n).length = n := by
  intro n
  induction n with
  | zero => intro s; rfl
  | succ n ih => intro s; simp [listOf_succ, ih]

theorem mergeList_nil_left {α : Type} (cmp : α → α → Int) (ys : List α) :
    mergeList cmp [] ys = ys := by
  cases ys <;> simp [mergeList]

theorem mergeList_nil_right {α : Type} (cmp : α → α → Int) (xs : List α) :
    mergeList cmp xs [] = xs := by
  cases xs <;> simp [mergeList]

theorem mergeList_cons_lt {α : Type} (cmp : α → α → Int) {x y : α} (xs ys : List α)
    (h : cmp x y < 0) :
    mergeList cmp (x :: xs) (y :: ys) = x :: mergeList cmp xs (y :: ys) := by
  simp [mergeList, h]

theorem mergeList_cons_ge {α : Type} (cmp : α → α → Int) {x y : α} (xs ys : List α)
    (h : ¬cmp x y < 0) :
    mergeList cmp (x :: xs) (y :: ys) = y :: mergeList cmp (x :: xs) ys := by
  simp [mergeList, h]

theorem mergeList_length {α : Type} (cmp : α → α → Int) :
    ∀ (L R : List α), (mergeList cmp L R).length = L.length + R.length := by
  intro L R
  induction L, R using mergeList.induct cmp with
  | case1 ys => simp [mergeList_nil_left]
  | case2 x xs => simp [mergeList_nil_right]
  | case3 x xs y ys h ih => simp [mergeList_cons_lt cmp _ _ h, ih]; omega
  | case4 x xs y ys h ih => simp [mergeList_cons_ge cmp _ _ h, ih]; omega

theorem mergeList_head {α : Type} (cmp : α → α → Int) :
    ∀ (L R : List α) (z : α), (mergeList cmp L R).head? = some z →
      L.head? = some z ∨ R.head? = some z := by
  intro L R z h
  match L, R with
  | [], ys => right; rwa [mergeList_nil_left] at h
  | x :: xs, [] => left; rwa [mergeList_nil_right] at h
  | x :: xs, y :: ys =>
    by_cases hc : cmp x y < 0
    · left; rw [mergeList_cons_lt cmp _ _ hc] at h; simpa using h
    · right; rw [mergeList_cons_ge cmp _ _ hc] at h; simpa using h

/-- Sortedness of the spec-level merge: if the comparator is
sign-consistent (the strict-weak-order C contract makes
`cmp a b < 0 ↔ cmp b a > 0`) then merging two adjacent-sorted lists
yields an adjacent-sorted list. -/
theorem mergeList_chain {α : Type} {cmp : α → α → Int}
    (hA : ∀ a b, cmp a b < 0 ↔ cmp b a > 0) :
    ∀ (L R : List α), List.Chain' (fun a b => cmp a b ≤ 0) L →
      List.Chain' (fun a b => cmp a b ≤ 0) R →
      List.Chain' (fun a b => cmp a b ≤ 0) (mergeList cmp L R) := by
  intro L R
  induction L, R using mergeList.induct cmp with
  | case1 ys => intro _ hR; rwa [mergeList_nil_left]
  | case2 x xs => intro hL _; rwa [mergeList_nil_right]
  | case3 x xs y ys h ih =>
    intro hL hR
    rw [mergeList_cons_lt cmp _ _ h]
    rw [List.chain'_cons'] at hL ⊢
    refine ⟨?_, ih hL.2 hR⟩
    intro b hb
    rcases mergeList_head cmp _ _ _ hb with hb' | hb'
    · exact hL.1 b hb'
    · simp only [List.head?] at hb'
      have h' : y = b := by injection hb'
      subst h'
      omega
  | case4 x xs y ys h ih =>
    intro hL hR
    rw [mergeList_cons_ge cmp _ _ h]
    rw [List.chain'_cons'] at hR ⊢
    refine ⟨?_, ih hL hR.2⟩
    intro b hb
    rcases mergeList_head cmp _ _ _ hb with hb' | hb'
    · simp only [List.head?] at hb'
      have h' : x = b := by injection hb'
      subst h'
      by_contra hpos
      push_neg at hpos
      exact h ((hA x y).mpr (by omega))
    · exact hR.1 b hb'

theorem listOf_head {α : Type} (f : Nat → α) :
    ∀ (n s : Nat), 0 < n → (listOf f s n).head? = some (f s) := by
  intro n s h
  cases n with
  | zero => omega
  | succ n => rfl

theorem chain_listOf {α : Type} (cmp : α → α → Int) (f : Nat → α) :
    ∀ (n s : Nat),
      List.Chain' (fun a b => cmp a b ≤ 0) (listOf f s n) ↔
        (∀ k, k + 1 < n → cmp (f (s + k)) (f (s + k + 1)) ≤ 0) := by
  intro n
  induction n with
  | zero =>
    intro s
    constructor
    · intro _ k hk; omega
    · intro _; exact List.chain'_nil
  | succ n ih =>
    intro s
    rw [listOf_succ, List.chain'_cons', ih (s + 1)]
    constructor
    · rintro ⟨h1, h2⟩ k hk
      cases k with
      | zero =>
        have hh := listOf_head f n (s + 1) (by omega)
        have := h1 (f (s + 1)) (by rw [hh]; rfl)
        simpa using this
      | succ k =>
        have hk2 := h2 k (by omega)
        have e1 : s + 1 + k = s + (k + 1) := by omega
        rw [e1] at hk2
        exact hk2
    · intro hAll
      constructor
      · intro b hb
        cases n with
        | zero => simp [listOf_zero] at hb
        | succ m =>
          rw [listOf_head f (m + 1) (s + 1) (by omega)] at hb
          have hb' : f (s + 1) = b := by
            simpa using hb
          subst hb'
          simpa using hAll 0 (by omega)
      · intro k hk
        have hkk := hAll (k + 1) (by omega)
        have e1 : s + (k + 1) = s + 1 + k := by omega
        rw [e1] at hkk
        exact hkk

theorem merge_tails_lhs_done {α : Type} (scr : Nat → α) (LE RE li ri bi : Nat)
    (base : Nat → α) (h : LE ≤ li) :
    (∀ j, j < bi → merge_tails scr LE RE li ri bi base j = base j) ∧
    (∀ j, bi + (RE - ri) < j → merge_tails scr LE RE li ri bi base j = base j) ∧
    listOf (merge_tails scr LE RE li ri bi base) bi (RE - ri) =
      listOf scr ri (RE - ri) := by
  have hli : ¬li < LE := by omega
  by_cases hri : ri < RE
  · simp only [merge_tails, if_neg hli, if_pos hri]
    refine ⟨?_, ?_, ?_⟩
    · intro j hj
      rw [mergesort_copy_spec]
      rw [if_neg (by omega)]
    · intro j hj
      rw [mergesort_copy_spec]
      rw [if_neg (by omega)]
    · refine listOf_congr _ _ _ ?_
      intro k hk
      rw [mergesort_copy_spec]
      rw [if_pos (by omega)]
      congr 1
      omega
  · simp only [merge_tails, if_neg hli, if_neg hri]
    have h0 : RE - ri = 0 := by omega
    rw [h0]
    exact ⟨fun j _ => trivial, fun j _ => trivial, rfl⟩

theorem merge_tails_rhs_done {α : Type} (scr : Nat → α) (LE RE li ri bi : Nat)
    (base : Nat → α) (h : RE ≤ ri) :
    (∀ j, j < bi → merge_tails scr LE RE li ri bi base j = base j) ∧
    (∀ j, bi + (LE - li) < j → merge_tails scr LE RE li ri bi base j = base j) ∧
    listOf (merge_tails scr LE RE li ri bi base) bi (LE - li) =
      listOf scr li (LE - li) := by
  have hri : ¬ri < RE := by omega
  by_cases hli : li < LE
  · simp only [merge_tails, if_pos hli, if_neg hri]
    refine ⟨?_, ?_, ?_⟩
    · intro j hj
      rw [mergesort_copy_spec]
      rw [if_neg (by omega)]
    · intro j hj
      rw [mergesort_copy_spec]
      rw [if_neg (by omega)]
    · refine listOf_congr _ _ _ ?_
      intro k hk
      rw [mergesort_copy_spec]
      rw [if_pos (by omega)]
      congr 1
      omega
  · simp only [merge_tails, if_neg hli, if_neg hri]
    have h0 : LE - li = 0 := by omega
    rw [h0]
    exact ⟨fun j _ => trivial, fun j _ => trivial, rfl⟩

/-- Central merge lemma: the merge loop (with sufficient fuel) followed
by the tail copies writes the spec-level `mergeList` of the two scratch
runs at the output cursor, touches nothing below the cursor, and
touches nothing above the end of the merged region except possibly the
single record right after it (the overrun analysed separately). -/
theorem merge_run4_spec {α : Type} (cmp : α → α → Int) (scr : Nat → α) (LE RE : Nat) :
    ∀ (fuel li ri bi : Nat) (base : Nat → α),
      li ≤ LE → LE ≤ ri → ri ≤ RE → (LE - li) + (RE - ri) < fuel →
      ((∀ j, j < bi → merge_run4 cmp scr LE RE fuel li ri bi base j = base j) ∧
       (∀ j, bi + ((LE - li) + (RE - ri)) < j →
          merge_run4 cmp scr LE RE fuel li ri bi base j = base j) ∧
       listOf (merge_run4 cmp scr LE RE fuel li ri bi base) bi ((LE - li) + (RE - ri)) =
         mergeList cmp (listOf scr li (LE - li)) (listOf scr ri (RE - ri))) := by
  intro fuel
  induction fuel with
  | zero => intro li ri bi base h1 h2 h3 h4; omega
  | succ fuel ih =>
    intro li ri bi base h1 h2 h3 h4
    by_cases hc : cmp (scr li) (scr ri) < 0
    · by_cases hbrk : LE < li + 1
      · have hli : li = LE := by omega
        have hrun : merge_run4 cmp scr LE RE (fuel + 1) li ri bi base =
            merge_tails scr LE RE (li + 1) ri bi (upd base bi (scr li)) := by
          simp [merge_run4, merge_loop4, hc, hbrk]
        obtain ⟨t1, t2, t3⟩ :=
          merge_tails_lhs_done scr LE RE (li + 1) ri bi (upd base bi (scr li)) (by omega)
        rw [hrun]
        have hz : LE - li = 0 := by omega
        rw [hz]
        simp only [Nat.zero_add]
        refine ⟨?_, ?_, ?_⟩
        · intro j hj
          rw [t1 j hj, upd_ne _ _ (by omega)]
        · intro j hj
          rw [t2 j hj, upd_ne _ _ (by omega)]
        · rw [t3, listOf_zero, mergeList_nil_left]
      · have hlt : li < LE := by omega
        have hrun : merge_run4 cmp scr LE RE (fuel + 1) li ri bi base =
            merge_run4 cmp scr LE RE fuel (li + 1) ri (bi + 1) (upd base bi (scr li)) := by
          simp [merge_run4, merge_loop4, hc, hbrk]
        obtain ⟨A, B, C⟩ := ih (li + 1) ri (bi + 1) (upd base bi (scr li))
          (by omega) h2 h3 (by omega)
        rw [hrun]
        have hm : (LE - li) + (RE - ri) = ((LE - (li + 1)) + (RE - ri)) + 1 := by omega
        refine ⟨?_, ?_, ?_⟩
        · intro j hj
          rw [A j (by omega), upd_ne _ _ (by omega)]
        · intro j hj
          rw [hm] at hj
          rw [B j (by omega), upd_ne _ _ (by omega)]
        · rw [hm, listOf_succ]
          have hhead :
              merge_run4 cmp scr LE RE fuel (li + 1) ri (bi + 1) (upd base bi (scr li)) bi =
                scr li := by
            rw [A bi (by omega), upd_self]
          rw [hhead, C]
          have hL : LE - li = (LE - (li + 1)) + 1 := by omega
          rw [hL, listOf_succ]
          by_cases hri : ri < RE
          · have hR : RE - ri = (RE - (ri + 1)) + 1 := by omega
            rw [hR, listOf_succ, mergeList_cons_lt cmp _ _ hc]
          · have hR : RE - ri = 0 := by omega
            rw [hR]
            simp only [listOf_zero, mergeList_nil_right]
    · by_cases hbrk : RE < ri + 1
      · have hri : ri = RE := by omega
        have hrun : merge_run4 cmp scr LE RE (fuel + 1) li ri bi base =
            merge_tails scr LE RE li (ri + 1) bi (upd base bi (scr ri)) := by
          simp [merge_run4, merge_loop4, hc, hbrk]
        obtain ⟨t1, t2, t3⟩ :=
          merge_tails_rhs_done scr LE RE li (ri + 1) bi (upd base bi (scr ri)) (by omega)
        rw [hrun]
        have hz : RE - ri = 0 := by omega
        rw [hz]
        simp only [Nat.add_zero]
        refine ⟨?_, ?_, ?_⟩
        · intro j hj
          rw [t1 j hj, upd_ne _ _ (by omega)]
        · intro j hj
          rw [t2 j hj, upd_ne _ _ (by omega)]
        · rw [t3, listOf_zero, mergeList_nil_right]
      · have hrt : ri < RE := by omega
        have hrun : merge_run4 cmp scr LE RE (fuel + 1) li ri bi base =
            merge_run4 cmp scr LE RE fuel li (ri + 1) (bi + 1) (upd base bi (scr ri)) := by
          simp [merge_run4, merge_loop4, hc, hbrk]
        obtain ⟨A, B, C⟩ := ih li (ri + 1) (bi + 1) (upd base bi (scr ri))
          h1 (by omega) (by omega) (by omega)
        rw [hrun]
        have hm : (LE - li) + (RE - ri) = ((LE - li) + (RE - (ri + 1))) + 1 := by omega
        refine ⟨?_, ?_, ?_⟩
        · intro j hj
          rw [A j (by omega), upd_ne _ _ (by omega)]
        · intro j hj
          rw [hm] at hj
          rw [B j (by omega), upd_ne _ _ (by omega)]
        · rw [hm, listOf_succ]
          have hhead :
              merge_run4 cmp scr LE RE fuel li (ri + 1) (bi + 1) (upd base bi (scr ri)) bi =
                scr ri := by
            rw [A bi (by omega), upd_self]
          rw [hhead, C]
          have hR : RE - ri = (RE - (ri + 1)) + 1 := by omega
          rw [hR, listOf_succ]
          by_cases hli : li < LE
          · have hL : LE - li = (LE - (li + 1)) + 1 := by omega
            rw [hL, listOf_succ, mergeList_cons_ge cmp _ _ hc]
          · have hL : LE - li = 0 := by omega
            rw [hL]
            simp only [listOf_zero, mergeList_nil_left]

/-- The merge step of the 4-byte partition: outside `[left, right+1]`
the buffer is untouched, and the merged region `[left, right]` holds
exactly the spec-level merge of the two sub-runs read from the buffer. -/
theorem merge_step4_spec {α : Type} (cmp : α → α → Int) (base scr : Nat → α)
    (left mid right : Nat) (hlm : left ≤ mid) (hmr : mid ≤ right) :
    (∀ j, j < left ∨ right + 1 < j →
        (merge_step4 cmp base scr left mid right).1 j = base j) ∧
    listOf (merge_step4 cmp base scr left mid right).1 left (right + 1 - left) =
      mergeList cmp (listOf base left (mid + 1 - left))
        (listOf base (mid + 1) (right - mid)) := by
  have hstep : (merge_step4 cmp base scr left mid right).1 =
      merge_run4 cmp
        (mergesort_copy (mergesort_copy scr 0 base left (mid - left + 1))
          (mid - left + 1) base (mid + 1) (right - mid))
        (mid - left + 1) ((mid - left + 1) + (right - mid))
        ((mid - left + 1) + (right - mid) + 2) 0 (mid - left + 1) left base := rfl
  obtain ⟨P1, P2, P3⟩ :=
    merge_run4_spec cmp
      (mergesort_copy (mergesort_copy scr 0 base left (mid - left + 1))
        (mid - left + 1) base (mid + 1) (right - mid))
      (mid - left + 1) ((mid - left + 1) + (right - mid))
      ((mid - left + 1) + (right - mid) + 2) 0 (mid - left + 1) left base
      (by omega) (by omega) (by omega) (by omega)
  have hm : (mid - left + 1) - 0 + ((mid - left + 1) + (right - mid) - (mid - left + 1)) =
      (mid - left + 1) + (right - mid) := by omega
  rw [hm] at P2 P3
  have hscrL : listOf
      (mergesort_copy (mergesort_copy scr 0 base left (mid - left + 1))
        (mid - left + 1) base (mid + 1) (right - mid)) 0 ((mid - left + 1) - 0) =
      listOf base left (mid + 1 - left) := by
    have he : (mid - left + 1) - 0 = mid + 1 - left := by omega
    rw [he]
    refine listOf_congr _ _ _ ?_
    intro k hk
    rw [mergesort_copy_spec]
    rw [if_neg (by omega)]
    rw [mergesort_copy_spec]
    rw [if_pos (by omega)]
    congr 1
    omega
  have hscrR : listOf
      (mergesort_copy (mergesort_copy scr 0 base left (mid - left + 1))
        (mid - left + 1) base (mid + 1) (right - mid))
      (mid - left + 1) ((mid - left + 1) + (right - mid) - (mid - left + 1)) =
      listOf base (mid + 1) (right - mid) := by
    have he : (mid - left + 1) + (right - mid) - (mid - left + 1) = right - mid := by omega
    rw [he]
    refine listOf_congr _ _ _ ?_
    intro k hk
    rw [mergesort_copy_spec]
    rw [if_pos (by omega)]
    congr 1
    omega
  constructor
  · intro j hj
    rw [hstep]
    rcases hj with hj | hj
    · exact P1 j hj
    · refine P2 j ?_
      omega
  · rw [hstep]
    have hreg : right + 1 - left = (mid - left + 1) + (right - mid) := by omega
    rw [hreg]
    rw [P3]
    rw [hscrL, hscrR]

theorem merge_step4_sorted {α : Type} {cmp : α → α → Int}
    (hA : ∀ a b, cmp a b < 0 ↔ cmp b a > 0) (B2 S2 : Nat → α)
    (left mid right : Nat) (hlm : left ≤ mid) (hmr : mid ≤ right)
    (hSL : sortedRange cmp B2 left mid) (hSR : sortedRange cmp B2 (mid + 1) right) :
    (∀ j, j < left ∨ right + 1 < j →
        (merge_step4 cmp B2 S2 left mid right).1 j = B2 j) ∧
    sortedRange cmp (merge_step4 cmp B2 S2 left mid right).1 left right := by
  obtain ⟨U, L⟩ := merge_step4_spec cmp B2 S2 left mid right hlm hmr
  refine ⟨U, ?_⟩
  have cL : List.Chain' (fun a b => cmp a b ≤ 0) (listOf B2 left (mid + 1 - left)) := by
    rw [chain_listOf]
    intro k hk
    exact hSL (left + k) (by omega) (by omega)
  have cR : List.Chain' (fun a b => cmp a b ≤ 0) (listOf B2 (mid + 1) (right - mid)) := by
    rw [chain_listOf]
    intro k hk
    exact hSR (mid + 1 + k) (by omega) (by omega)
  have cM := mergeList_chain hA _ _ cL cR
  rw [← L] at cM
  rw [chain_listOf] at cM
  intro i hi1 hi2
  have hk := cM (i - left) (by omega)
  have he : left + (i - left) = i := by omega
  rw [he] at hk
  exact hk

/-- Main invariant of the recursive 4-byte partition: with fuel
exceeding `right - left`, everything outside `[left, right+1]` is
untouched and the region `[left, right]` passes the adjacent-pair
check afterwards. -/
theorem mergesort_partition4_spec {α : Type} {cmp : α → α → Int}
    (hA : ∀ a b, cmp a b < 0 ↔ cmp b a > 0) :
    ∀ (fuel left right : Nat) (base scr : Nat → α), left ≤ right → right - left < fuel →
      ((∀ j, j < left ∨ right + 1 < j →
          (mergesort_partition4 cmp fuel base scr left right).1 j = base j) ∧
       sortedRange cmp (mergesort_partition4 cmp fuel base scr left right).1 left right) := by
  intro fuel
  induction fuel with
  | zero => intro left right base scr h1 h2; omega
  | succ fuel ih =>
    intro left right base scr h1 h2
    by_cases hl : left < left + (right - left) / 2
    · by_cases hr : left + (right - left) / 2 + 1 < right
      · -- both recursive calls taken
        have hunf : mergesort_partition4 cmp (fuel + 1) base scr left right =
            merge_step4 cmp
              (mergesort_partition4 cmp fuel
                (mergesort_partition4 cmp fuel base scr left
                  (left + (right - left) / 2)).1
                (mergesort_partition4 cmp fuel base scr left
                  (left + (right - left) / 2)).2
                (left + (right - left) / 2 + 1) right).1
              (mergesort_partition4 cmp fuel
                (mergesort_partition4 cmp fuel base scr left
                  (left + (right - left) / 2)).1
                (mergesort_partition4 cmp fuel base scr left
                  (left + (right - left) / 2)).2
                (left + (right - left) / 2 + 1) right).2
              left (left + (right - left) / 2) right := by
          simp [mergesort_partition4, hl, hr]
        obtain ⟨U1, S1⟩ := ih left (left + (right - left) / 2) base scr
          (by omega) (by omega)
        obtain ⟨U2, S2⟩ := ih (left + (right - left) / 2 + 1) right
          (mergesort_partition4 cmp fuel base scr left (left + (right - left) / 2)).1
          (mergesort_partition4 cmp fuel base scr left (left + (right - left) / 2)).2
          (by omega) (by omega)
        have hSL : sortedRange cmp
            (mergesort_partition4 cmp fuel
              (mergesort_partition4 cmp fuel base scr left
                (left + (right - left) / 2)).1
              (mergesort_partition4 cmp fuel base scr left
                (left + (right - left) / 2)).2
              (left + (right - left) / 2 + 1) right).1
            left (left + (right - left) / 2) := by
          intro i hi1 hi2
          rw [U2 i (by omega), U2 (i + 1) (by omega)]
          exact S1 i hi1 hi2
        obtain ⟨U3, S3⟩ := merge_step4_sorted hA _ _
          left (left + (right - left) / 2) right (by omega) (by omega) hSL S2
        rw [hunf]
        refine ⟨?_, S3⟩
        intro j hj
        rw [U3 j hj]
        rcases hj with hj | hj
        · rw [U2 j (by omega), U1 j (by omega)]
        · rw [U2 j (by omega), U1 j (by omega)]
      · -- only the left recursive call taken
        have hunf : mergesort_partition4 cmp (fuel + 1) base scr left right =
            merge_step4 cmp
              (mergesort_partition4 cmp fuel base scr left
                (left + (right - left) / 2)).1
              (mergesort_partition4 cmp fuel base scr left
                (left + (right - left) / 2)).2
              left (left + (right - left) / 2) right := by
          simp [mergesort_partition4, hl, hr]
        obtain ⟨U1, S1⟩ := ih left (left + (right - left) / 2) base scr
          (by omega) (by omega)
        have hSR : sortedRange cmp
            (mergesort_partition4 cmp fuel base scr left
              (left + (right - left) / 2)).1
            (left + (right - left) / 2 + 1) right := by
          intro i hi1 hi2
          omega
        obtain ⟨U3, S3⟩ := merge_step4_sorted hA _ _
          left (left + (right - left) / 2) right (by omega) (by omega) S1 hSR
        rw [hunf]
        refine ⟨?_, S3⟩
        intro j hj
        rw [U3 j hj]
        rcases hj with hj | hj
        · rw [U1 j (by omega)]
        · rw [U1 j (by omega)]
    · by_cases hr : left + (right - left) / 2 + 1 < right
      · -- only the right recursive call taken
        have hunf : mergesort_partition4 cmp (fuel + 1) base scr left right =
            merge_step4 cmp
              (mergesort_partition4 cmp fuel base scr
                (left + (right - left) / 2 + 1) right).1
              (mergesort_partition4 cmp fuel base scr
                (left + (right - left) / 2 + 1) right).2
              left (left + (right - left) / 2) right := by
          simp [mergesort_partition4, hl, hr]
        obtain ⟨U2, S2⟩ := ih (left + (right - left) / 2 + 1) right base scr
          (by omega) (by omega)
        have hSL : sortedRange cmp
            (mergesort_partition4 cmp fuel base scr
              (left + (right - left) / 2 + 1) right).1
            left (left + (right - left) / 2) := by
          intro i hi1 hi2
          omega
        obtain ⟨U3, S3⟩ := merge_step4_sorted hA _ _
          left (left + (right - left) / 2) right (by omega) (by omega) hSL S2
        rw [hunf]
        refine ⟨?_, S3⟩
        intro j hj
        rw [U3 j hj]
        rcases hj with hj | hj
        · rw [U2 j (by omega)]
        · rw [U2 j (by omega)]
      · -- no recursion: a region of at most two records
        have hunf : mergesort_partition4 cmp (fuel + 1) base scr left right =
            merge_step4 cmp base scr left (left + (right - left) / 2) right := by
          simp [mergesort_partition4, hl, hr]
        have hSL : sortedRange cmp base left (left + (right - left) / 2) := by
          intro i hi1 hi2
          omega
        have hSR : sortedRange cmp base (left + (right - left) / 2 + 1) right := by
          intro i hi1 hi2
          omega
        obtain ⟨U3, S3⟩ := merge_step4_sorted hA base scr
          left (left + (right - left) / 2) right (by omega) (by omega) hSL hSR
        rw [hunf]
        exact ⟨U3, S3⟩

theorem merge_loopG_eq_loop4 {α : Type} (cmp : α → α → Int) (scr : Nat → α) (LE RE : Nat) :
    ∀ (fuel li ri bi : Nat) (base : Nat → α),
      merge_loopG cmp scr LE RE fuel li ri bi base =
        merge_loop4 cmp scr LE RE fuel li ri bi base := by
  intro fuel
  induction fuel with
  | zero => intro li ri bi base; rfl
  | succ fuel ih =>
    intro li ri bi base
    simp only [merge_loopG, merge_loop4, mergesort_copy, ih]

theorem merge_runG_eq_run4 {α : Type} (cmp : α → α → Int) (scr : Nat → α)
    (LE RE fuel li ri bi : Nat) (base : Nat → α) :
    merge_runG cmp scr LE RE fuel li ri bi base =
      merge_run4 cmp scr LE RE fuel li ri bi base := by
  simp only [merge_runG, merge_run4, merge_loopG_eq_loop4]

theorem merge_stepG_eq_step4 {α : Type} (cmp : α → α → Int) (base scr : Nat → α)
    (left mid right : Nat) :
    merge_stepG cmp base scr left mid right = merge_step4 cmp base scr left mid right := by
  simp only [merge_stepG, merge_step4, merge_runG_eq_run4]

theorem mergesort_partition_eq_partition4 {α : Type} (cmp : α → α → Int) :
    ∀ (fuel : Nat) (base scr : Nat → α) (left right : Nat),
      mergesort_partition cmp fuel base scr left right =
        mergesort_partition4 cmp fuel base scr left right := by
  intro fuel
  induction fuel with
  | zero => intro base scr left right; rfl
  | succ fuel ih =>
    intro base scr left right
    simp only [mergesort_partition, mergesort_partition4, ih, merge_stepG_eq_step4]

theorem int_cmp_fwd_sign (a b : Int) : int_cmp_fwd a b < 0 ↔ int_cmp_fwd b a > 0 := by
  unfold int_cmp_fwd
  split_ifs <;> omega

/-- The zero-filled fresh scratch mapping. -/
def zero_scr : Nat → Int := fun _ => 0

/-- Concrete 3-record buffer `[3, 1, 2]` (padding 0 beyond). -/
def witness_base3 : Nat → Int :=
  fun i => if i = 0 then 3 else if i = 1 then 1 else if i = 2 then 2 else 0

/-- C1: for every buffer, every scratch contents, every record size and
every record count (up to the `size_t` range), and every comparator
satisfying the strict-weak-order sign contract, a successful
`mergesort_nonlibc` call leaves the buffer with no adjacent-pair
violation under the same comparator; `nmemb = 0` and `1` hold
vacuously. -/
theorem mergesort_nonlibc_sorts {α : Type} (cmp : α → α → Int)
    (hA : ∀ a b, cmp a b < 0 ↔ cmp b a > 0) (size : Nat) (scr base : Nat → α)
    (nmemb : Nat) (hn : nmemb ≤ SIZE_WORD) :
    ∀ i, i + 1 < nmemb →
      cmp ((mergesort_nonlibc cmp size (some scr) base nmemb).2 i)
        ((mergesort_nonlibc cmp size (some scr) base nmemb).2 (i + 1)) ≤ 0 := by
  intro i hi
  have hw : SIZE_WORD = 18446744073709551616 := by norm_num [SIZE_WORD]
  have hr : mergesort_right nmemb = nmemb - 1 := by
    unfold mergesort_right
    rw [hw]
    rw [hw] at hn
    omega
  have hspec := mergesort_partition4_spec hA (mergesort_right nmemb + 1) 0
    (mergesort_right nmemb) base scr (by omega) (by omega)
  have hres : (mergesort_nonlibc cmp size (some scr) base nmemb).2 =
      (mergesort_partition4 cmp (mergesort_right nmemb + 1) base scr 0
        (mergesort_right nmemb)).1 := by
    by_cases hsz : size = 4
    · simp [mergesort_nonlibc, hsz]
    · simp [mergesort_nonlibc, hsz, mergesort_partition_eq_partition4]
  rw [hres]
  exact hspec.2 i (by omega) (by omega)

/-- Witness for C1: sorting the 3-record buffer `[3, 1, 2]` with the
ascending comparator leaves both adjacent pairs unviolated. -/
theorem mergesort_nonlibc_sorts_witness :
    int_cmp_fwd ((mergesort_nonlibc int_cmp_fwd 4 (some zero_scr) witness_base3 3).2 0)
        ((mergesort_nonlibc int_cmp_fwd 4 (some zero_scr) witness_base3 3).2 1) ≤ 0 ∧
    int_cmp_fwd ((mergesort_nonlibc int_cmp_fwd 4 (some zero_scr) witness_base3 3).2 1)
        ((mergesort_nonlibc int_cmp_fwd 4 (some zero_scr) witness_base3 3).2 2) ≤ 0 :=
  ⟨mergesort_nonlibc_sorts int_cmp_fwd int_cmp_fwd_sign 4 zero_scr witness_base3 3
      (by norm_num [SIZE_WORD]) 0 (by omega),
   mergesort_nonlibc_sorts int_cmp_fwd int_cmp_fwd_sign 4 zero_scr witness_base3 3
      (by norm_num [SIZE_WORD]) 1 (by omega)⟩

/-- C2: in every merge step (both the 4-byte and the generic-width
path), the merged region `[left, right]` afterwards holds exactly the
merge in which the left sub-run's front record is emitted precisely
when the comparator returns a negative value on (left front, right
front), and the right sub-run's front record is emitted on every zero
or positive (tie) result. -/
theorem merge_step_refines_mergeList {α : Type} (cmp : α → α → Int)
    (base scr : Nat → α) (left mid right : Nat)
    (hlm : left ≤ mid) (hmr : mid ≤ right) :
    listOf (merge_step4 cmp base scr left mid right).1 left (right + 1 - left) =
      mergeList cmp (listOf base left (mid + 1 - left))
        (listOf base (mid + 1) (right - mid)) ∧
    listOf (merge_stepG cmp base scr left mid right).1 left (right + 1 - left) =
      mergeList cmp (listOf base left (mid + 1 - left))
        (listOf base (mid + 1) (right - mid)) := by
  have h4 := (merge_step4_spec cmp base scr left mid right hlm hmr).2
  refine ⟨h4, ?_⟩
  rw [merge_stepG_eq_step4]
  exact h4

/-- Witness for C2: merging the two one-record runs of `[3, 1]` on both
paths yields the `mergeList` of those runs. -/
theorem merge_step_refines_mergeList_witness :
    listOf (merge_step4 int_cmp_fwd witness_base3 zero_scr 0 0 1).1 0 2 =
      mergeList int_cmp_fwd (listOf witness_base3 0 1) (listOf witness_base3 1 1) ∧
    listOf (merge_stepG int_cmp_fwd witness_base3 zero_scr 0 0 1).1 0 2 =
      mergeList int_cmp_fwd (listOf witness_base3 0 1) (listOf witness_base3 1 1) :=
  merge_step_refines_mergeList int_cmp_fwd witness_base3 zero_scr 0 0 1
    (by omega) (by omega)

/-- C4: on the same input buffer, scratch, bounds and comparator, the
specialised 4-byte partition and the generic-width partition produce
identical buffer and scratch contents, so for 4-byte records the two
paths of `mergesort_nonlibc` give bit-identical results. -/
theorem mergesort_partition4_eq_generic {α : Type} (cmp : α → α → Int)
    (fuel : Nat) (base scr : Nat → α) (left right : Nat) :
    mergesort_partition cmp fuel base scr left right =
      mergesort_partition4 cmp fuel base scr left right :=
  mergesort_partition_eq_partition4 cmp fuel base scr left right

/-- C6: a failed scratch allocation makes `mergesort_nonlibc` return
`-1` with the buffer untouched, and every call with a successful
allocation returns `0`. -/
theorem mergesort_nonlibc_failure_modes {α : Type} (cmp : α → α → Int) (size : Nat)
    (base : Nat → α) (nmemb : Nat) :
    mergesort_nonlibc cmp size none base nmemb = (-1, base) ∧
    ∀ scr : Nat → α, (mergesort_nonlibc cmp size (some scr) base nmemb).1 = 0 := by
  constructor
  · rfl
  · intro scr
    by_cases h : size = 4 <;> simp [mergesort_nonlibc, h]

/-- 2-record buffer `[1, 2]` with a canary value 99 at index 2, one
past the buffer. -/
def canary_base : Nat → Int := fun i => if i = 0 then 1 else if i = 1 then 2 else 99

/-- C3 (code bug): sorting the already-sorted 2-record buffer `[1, 2]`
overwrites index 2 = right + 1, outside the merged range `[0, 1]`, with
the scratch word at `rhs_end` (0 in a fresh zero-filled mapping): after
the exhausted right run's cursor reaches `rhs_end`, the loop still
consults the comparator on `*rhs_end` and stores it before the bound
check fires. -/
theorem merge_oob_write_concrete :
    canary_base 2 = 99 ∧
    (mergesort_nonlibc int_cmp_fwd 4 (some zero_scr) canary_base 2).2 2 = 0 ∧
    listOf (mergesort_nonlibc int_cmp_fwd 4 (some zero_scr) canary_base 2).2 0 2 =
      [1, 2] := by
  refine ⟨by decide, by decide, by decide⟩

/-- 1-record buffer `[5]` (padding 77 beyond). -/
def one_base : Nat → Int := fun i => if i = 0 then 5 else 77

/-- C5 (code bug): for `nmemb = 0` the `size_t` bound `nmemb - 1`
wraps to `2 ^ 64 - 1`, so the call is not the claimed no-op (the
partition is entered on the range `[0, 2 ^ 64 - 1]`; on a real system
the zero-byte scratch mmap fails first and the call reports failure).
For `nmemb = 1` the record of the buffer is indeed left unchanged. -/
theorem mergesort_nmemb_zero_underflow :
    mergesort_right 0 = SIZE_WORD - 1 ∧
    listOf (mergesort_nonlibc int_cmp_fwd 4 (some zero_scr) one_base 1).2 0 1 = [5] := by
  constructor
  · norm_num [mergesort_right, SIZE_WORD]
  · decide

/-- 4-record buffer `[-2, -1, 7, 3]` (padding 55 beyond). -/
def lossy_base : Nat → Int :=
  fun i => if i = 0 then -2 else if i = 1 then -1 else
    if i = 2 then 7 else if i = 3 then 3 else 55

/-- C10 (code bug): sorting `[-2, -1, 7, 3]` with the ascending
comparator returns `[-2, -1, -1, 3]`: the merge of the sub-range
`[0, 1]` overruns into index 2 and overwrites the record 7 with a
stale scratch word, so the result is sorted but not a permutation of
the input. -/
theorem mergesort_not_permutation_concrete :
    listOf (mergesort_nonlibc int_cmp_fwd 4 (some zero_scr) lossy_base 4).2 0 4 =
      [-2, -1, -1, 3] ∧
    ¬(listOf (mergesort_nonlibc int_cmp_fwd 4 (some zero_scr) lossy_base 4).2 0 4).Perm
        (listOf lossy_base 0 4) := by
  have h : listOf (mergesort_nonlibc int_cmp_fwd 4 (some zero_scr) lossy_base 4).2 0 4 =
      [-2, -1, -1, 3] := by decide
  refine ⟨h, ?_⟩
  rw [h]
  intro hperm
  have hin : listOf lossy_base 0 4 = [-2, -1, 7, 3] := by decide
  rw [hin] at hperm
  have hc := List.perm_iff_count.mp hperm 7
  exact absurd hc (by decide)

/-- C7 counterexample: when every call of the iteration succeeds except
the primary `move_pages`, which fails with `EPERM` (not `ENOSYS`), the
iteration does NOT continue: it takes the fatal early exit at the
`move_pages` check, refuting the claim that such a failure is only
logged. -/
theorem numa_move_pages_fatal_concrete :
    numa_first_fatal move_pages_eperm ≠ none ∧
    numa_first_fatal move_pages_eperm = some NumaCall.movePages := by
  refine ⟨by decide, by decide⟩

/-- C7 (amended): a failure of the primary `move_pages` with an errno
other than `ENOSYS` takes the same fatal early-exit path as the core
policy calls, while `migrate_pages` failures are ignored. -/
theorem numa_move_pages_takes_fatal_path (ret errno : Int)
    (hret : ret < 0) (herr : errno ≠ errno_enosys) :
    numa_call_fatal NumaCall.movePages ret errno = true ∧
    numa_call_fatal NumaCall.migratePages ret errno = false := by
  constructor
  · simp [numa_call_fatal, hret, herr]
  · rfl

/-- Witness for the amended C7 at `ret = -1`, `errno = EPERM`. -/
theorem numa_move_pages_takes_fatal_path_witness :
    numa_call_fatal NumaCall.movePages (-1) errno_eperm = true ∧
    numa_call_fatal NumaCall.migratePages (-1) errno_eperm = false :=
  numa_move_pages_takes_fatal_path (-1) errno_eperm (by decide) (by decide)

/-- C8 (code bug): the upper-case branch of `hex_to_int` computes
`ch - 'F' + 10`, so `'A'` maps to 5 (the claim requires 10) and `'F'`
to 10 (the claim requires 15); the digit and lower-case branches and
the `-1` rejection behave as claimed. -/
theorem hex_to_int_capital_digit_bug :
    hex_to_int 'A' = 5 ∧ hex_to_int 'F' = 10 ∧ hex_to_int '0' = 0 ∧
    hex_to_int '9' = 9 ∧ hex_to_int 'a' = 10 ∧ hex_to_int 'f' = 15 ∧
    hex_to_int 'g' = -1 ∧ hex_to_int ' ' = -1 := by
  decide

/-- The heap built by node discovery on the mask string `"29"`
(bits {0, 3, 5}), whose characters are scanned right to left. -/
def nodes_29 : NodeHeap :=
  ((stress_numa_get_mem_nodes ['9', '2'] 0 emptyHeap).map Prod.fst).getD emptyHeap

/-- C9: discovery on the bitmask 0x29 (set bits {0, 3, 5}) succeeds and
builds exactly three nodes whose ids are {0, 3, 5}; the successor of
the tail node is the head node, and following `next` for
`3 * count = 9` steps from any node returns to it. -/
theorem numa_nodes_cycle_bits_0_3_5 :
    (stress_numa_get_mem_nodes ['9', '2'] 0 emptyHeap).isSome = true ∧
    nodes_29.cnt = 3 ∧
    ({nodes_29.ids 0, nodes_29.ids 1, nodes_29.ids 2} : Finset Nat) = {0, 3, 5} ∧
    nodes_29.nxt (nodes_29.tail.getD 9) = nodes_29.head.getD 9 ∧
    nodes_29.nxt^[9] 0 = 0 ∧ nodes_29.nxt^[9] 1 = 1 ∧ nodes_29.nxt^[9] 2 = 2 := by
  decide
